import Mathlib

/-!
Verification of the PyOP2 Inspector/Fusion subsystem
(`pyop2/fusion/transformer.py` and `pyop2/openmp.py`).

The Python data model is embedded shallowly: access descriptors, maps,
arguments and loops become plain inductive types; the dependency analyzer,
the soft-fusion grouping pass, the soft-fusion kernel builder, the
hard-fusion pair search, the SLOPE set conversion and the inspector state
machine become computable functions translated from the source.  Parts of
the repository that are referenced but whose files are not available
(`plan.pyx`, `fusion/filters.py`, `fusion/scheduler.py`, `caching.py`) are
modelled from the specification and marked as such in their doc comments.
-/

namespace PyOP2Spec

/-! ## Data model -/

/-- Access descriptors (`pyop2.base`): READ, WRITE, RW, INC, MIN, MAX. -/
inductive Access where
  | READ | WRITE | RW | INC | MIN | MAX
deriving DecidableEq, Repr, Inhabited

/-- `reads = lambda l: set(a for a in l.args if a.access in [READ, RW])`
(transformer.py line 500): accesses counted as reads. -/
def isReadAcc : Access → Bool
  | Access.READ => true
  | Access.RW => true
  | _ => false

/-- `writes = lambda l: set(a for a in l.args if a.access in [RW, WRITE, MIN, MAX])`
(transformer.py line 501): accesses counted as writes. -/
def isWriteAcc : Access → Bool
  | Access.RW => true
  | Access.WRITE => true
  | Access.MIN => true
  | Access.MAX => true
  | _ => false

/-- `incs = lambda l: set(a for a in l.args if a.access in [INC])`
(transformer.py line 502). -/
def isIncAcc : Access → Bool
  | Access.INC => true
  | _ => false

/-- The identity-relevant part of a PyOP2 `Map`: identity, source iteration
set, target set and arity.  Sets are represented by numeric identifiers. -/
structure PMapCore where
  mid : Nat
  iterset : Nat
  toset : Nat
  arity : Nat
deriving DecidableEq, Repr, Inhabited

/-- A PyOP2 `Map`: its core data, the factor maps a `MixedMap` is composed
of (`m.factors`, empty for a plain map) and its per-source-element target
indices (`m.values`, row `e` lists the targets of element `e`). -/
structure PMap where
  core : PMapCore
  factors : List PMapCore
  values : List (List Nat)
deriving DecidableEq, Repr, Inhabited

/-- A loop `Arg`: underlying datum (numeric identifier), access mode, the
optional indirection map and whether the argument is a matrix. -/
structure Arg where
  data : Nat
  access : Access
  amap : Option PMap
  isMat : Bool
deriving DecidableEq, Repr, Inhabited

/-- `Arg._is_direct`: a data argument without a map. -/
def Arg.isDirect (a : Arg) : Bool := a.amap.isNone && !a.isMat

/-- `Arg._is_indirect`: a data argument with a map. -/
def Arg.isIndirect (a : Arg) : Bool := a.amap.isSome && !a.isMat

/-- An `IterationSpace`: its iteration set (numeric identifier), its extents
and whether the set carries deep (multi-level) halo information
(`hasattr(iterset, '_deep_size')`). -/
structure ItSpace where
  iterset : Nat
  extents : Nat
  deepHalo : Bool
deriving DecidableEq, Repr, Inhabited

/-- A COFFEE statement, reduced to what fusion manipulates: a `FlatBlock`
carrying literal text, or a statement node carrying the symbols it
references. -/
inductive Stmt where
  | flat (s : String)
  | node (syms : List String)
deriving DecidableEq, Repr, Inhabited

/-- A formal-parameter declaration of a kernel (`ast.Decl`): C type and
symbol. -/
structure Decl where
  typ : String
  sym : String
deriving DecidableEq, Repr, Inhabited

/-- A kernel function declaration (`ast.FunDecl`): name, parameter list and
statement body. -/
structure FunDecl where
  name : String
  args : List Decl
  body : List Stmt
deriving DecidableEq, Repr, Inhabited

/-- A parallel loop: iteration space, ordered argument list and the AST of
its kernel (`k._original_ast if k._code else k._ast`). -/
structure Loop where
  itSpace : ItSpace
  args : List Arg
  kernel : FunDecl
deriving DecidableEq, Repr, Inhabited

def dummyLoop : Loop := ⟨⟨0, 0, false⟩, [], ⟨"", [], []⟩⟩

/-! ## Dependency analyzer (`loops_analyzer`, transformer.py lines 505-574) -/

def readsOf (l : Loop) : List Arg := l.args.filter (fun a => isReadAcc a.access)

def writesOf (l : Loop) : List Arg := l.args.filter (fun a => isWriteAcc a.access)

def incsOf (l : Loop) : List Arg := l.args.filter (fun a => isIncAcc a.access)

/-- `all_reads`: data read by a loop, over all arguments. -/
def allReads (l : Loop) : List Nat := (readsOf l).map (fun a => a.data)

/-- `all_writes`: data written by a loop, over all arguments. -/
def allWrites (l : Loop) : List Nat := (writesOf l).map (fun a => a.data)

/-- `all_incs`: data incremented by a loop, over all arguments. -/
def allIncs (l : Loop) : List Nat := (incsOf l).map (fun a => a.data)

/-- `dir_reads`: data read through direct arguments. -/
def dirReads (l : Loop) : List Nat :=
  ((readsOf l).filter (fun a => a.isDirect)).map (fun a => a.data)

/-- `dir_inc_writes`: data incremented or written through direct arguments. -/
def dirIncWrites (l : Loop) : List Nat :=
  ((incsOf l ++ writesOf l).filter (fun a => a.isDirect)).map (fun a => a.data)

/-- `ind_reads`: data read through indirect arguments. -/
def indReads (l : Loop) : List Nat :=
  ((readsOf l).filter (fun a => a.isIndirect)).map (fun a => a.data)

/-- `ind_inc_writes`: data incremented or written through indirect arguments. -/
def indIncWrites (l : Loop) : List Nat :=
  ((incsOf l ++ writesOf l).filter (fun a => a.isIndirect)).map (fun a => a.data)

/-- Non-empty intersection test between two data-identifier sets
(`xs & ys != set()`). -/
def dinter (xs ys : List Nat) : Bool := xs.any (fun d => decide (d ∈ ys))

/-- The dictionary of booleans returned by `loops_analyzer`. -/
structure AnalyzerInfo where
  homogeneous : Bool
  heterogeneous : Bool
  direct_raw : Bool
  direct_war : Bool
  direct_waw : Bool
  direct_w : Bool
  indirect_raw : Bool
  indirect_war : Bool
  indirect_waw : Bool
  indirect_w : Bool
  pure_iai : Bool
deriving DecidableEq, Repr

/-- `loops_analyzer(loop1, loop2)` (transformer.py lines 505-574);
`loop1` precedes `loop2`.  INC is treated as a special case of WRITE.
The third conjunct of `pure_iai` is a verbatim duplicate of the first, as
in the source (line 572 repeats line 570). -/
def loopsAnalyzer (loop1 loop2 : Loop) : AnalyzerInfo :=
  let homogeneous := decide (loop1.itSpace = loop2.itSpace)
  let heterogeneous := !homogeneous
  let direct_raw := homogeneous && dinter (dirIncWrites loop1) (dirReads loop2)
  let direct_war := homogeneous && dinter (dirReads loop1) (dirIncWrites loop2)
  let direct_waw := homogeneous && dinter (dirIncWrites loop1) (dirIncWrites loop2)
  let direct_w := direct_raw || direct_war || direct_waw
  let indirect_raw :=
    (homogeneous && dinter (indIncWrites loop1) (indReads loop2)) ||
    (heterogeneous && dinter (allWrites loop1) (allReads loop2))
  let indirect_war :=
    (homogeneous && dinter (indReads loop1) (indIncWrites loop2)) ||
    (heterogeneous && dinter (allReads loop1) (allWrites loop2))
  let indirect_waw :=
    (homogeneous && dinter (indIncWrites loop1) (indIncWrites loop2)) ||
    (heterogeneous && dinter (allWrites loop1) (allWrites loop2))
  let indirect_w := indirect_raw || indirect_war || indirect_waw
  let pure_iai :=
    dinter (allIncs loop1) (allIncs loop2) &&
    !(dinter (allWrites loop1) (allReads loop2)) &&
    !(dinter (allReads loop1) (allWrites loop2)) &&
    !(dinter (allWrites loop1) (allReads loop2))
  ⟨homogeneous, heterogeneous, direct_raw, direct_war, direct_waw, direct_w,
   indirect_raw, indirect_war, indirect_waw, indirect_w, pure_iai⟩

/-! ## Soft fusion grouping (`Inspector._soft_fuse`, transformer.py lines 178-218) -/

/-- The break condition of `_soft_fuse`:
`info['heterogeneous'] or info['indirect_w']` for
`info = loops_analyzer(base_loop, loop)` with `base_loop = fusing[-1]`. -/
def sfBreak (a b : Loop) : Bool :=
  let info := loopsAnalyzer a b
  info.heterogeneous || info.indirect_w

/-- The scan loop of `_soft_fuse`: `cur` is the current `fusing` group and
`lastL` is `fusing[-1]`; on a break the group is closed and a new group is
started at the breaking loop; the final group is flushed at the end. -/
def softGroupsGo (cur : List Loop) (lastL : Loop) : List Loop → List (List Loop)
  | [] => [cur]
  | l :: rest =>
    if sfBreak lastL l then cur :: softGroupsGo [l] l rest
    else softGroupsGo (cur ++ [l]) l rest

/-- The groups of loops fused by `_soft_fuse`, scanning the chain left to
right starting from `fusing = [loop_chain[0]]`. -/
def softFuseGroups : List Loop → List (List Loop)
  | [] => []
  | l :: rest => softGroupsGo [l] l rest

/-- Concatenation of the emitted groups. -/
def catAll (gs : List (List Loop)) : List Loop := gs.foldr (fun g acc => g ++ acc) []

/-! ## Soft-fusion kernel builder (`build_soft_fusion_kernel`,
transformer.py lines 577-606) -/

/-- The marker comment inserted before each appended kernel body
(`ast.FlatBlock`, line 600). -/
def markerStmt : Stmt := Stmt.flat ("// Fused kernel:")

/-- Step 3 of the builder: a reference to one of the appended kernel's own
parameters gets the per-kernel unique suffix `_<uid>`; other symbols are
untouched.  The source renames the (shared) declaration objects and every
reference found by `SymbolReferences` inside the appended AST; here the
per-declaration renaming loop is modelled as one simultaneous renaming over
the set of parameter names. -/
def renameSym (ps : List String) (uid : Nat) (s : String) : String :=
  if decide (s ∈ ps) then s ++ "_" ++ toString uid else s

def renameStmt (ps : List String) (uid : Nat) : Stmt → Stmt
  | Stmt.flat s => Stmt.flat s
  | Stmt.node syms => Stmt.node (syms.map (renameSym ps uid))

/-- One iteration of the builder loop: extend the function name, append the
(renamed) parameter declarations, and append the renamed body preceded by
the marker comment. -/
def fuseInto (uid : Nat) (base fuse : FunDecl) : FunDecl :=
  let ps := fuse.args.map (fun d => d.sym)
  { name := base.name ++ "_" ++ fuse.name,
    args := base.args ++ fuse.args.map (fun d => { d with sym := renameSym ps uid d.sym }),
    body := base.body ++ markerStmt :: fuse.body.map (renameStmt ps uid) }

/-- `for unique_id, _fuse_ast in enumerate(fuse_asts, 1)` folded over the
appended kernels. -/
def fuseAll (uid : Nat) (base : FunDecl) : List FunDecl → FunDecl
  | [] => base
  | f :: fs => fuseAll (uid + 1) (fuseInto uid base f) fs

/-- Keep, in pairing order, the declaration of the first loop argument seen
for each datum; `seen` holds the data already represented. -/
def dedupFirstByData (seen : List Nat) : List (Arg × Decl) → List Decl
  | [] => []
  | (a, d) :: rest =>
    if decide (a.data ∈ seen) then dedupFirstByData seen rest
    else d :: dedupFirstByData (a.data :: seen) rest

/-- Modelled from the spec: `Filter.kernel_args` (file
`pyop2/fusion/filters.py` is not available under src/).  After the bodies
are concatenated, duplicate parameters that refer to the same underlying
data reference across the merged signature are eliminated; the binding of
merged formal parameters to data is positional between the fused loops'
flattened argument lists and the merged signature, and the first parameter
for each datum is the one kept. -/
def filterKernelArgs (loops : List Loop) (fd : FunDecl) : FunDecl :=
  { fd with args := dedupFirstByData [] ((loops.flatMap (fun l => l.args)).zip fd.args) }

/-- `build_soft_fusion_kernel(loops, loop_chain_index)`: deep-copy the
first loop's kernel AST as the base, fold the remaining kernels into it
with unique ids starting at 1, then eliminate redundant parameters. -/
def buildSoftFusionKernel (loops : List Loop) : FunDecl :=
  match loops with
  | [] => ⟨"", [], []⟩
  | l :: rest => filterKernelArgs (l :: rest) (fuseAll 1 l.kernel (rest.map (fun x => x.kernel)))

/-- The piece contributed to the fused body by the kernel appended with id
`uid`: the marker comment followed by its renamed statements. -/
def fusedBodyPiece (uid : Nat) (f : FunDecl) : List Stmt :=
  markerStmt :: f.body.map (renameStmt (f.args.map (fun d => d.sym)) uid)

/-- The piece contributed to the merged signature (before duplicate
elimination) by the kernel appended with id `uid`. -/
def fusedArgsPiece (uid : Nat) (f : FunDecl) : List Decl :=
  f.args.map (fun d => { d with sym := renameSym (f.args.map (fun e => e.sym)) uid d.sym })

/-! ## Hard-fusion pair search (`Inspector._hard_fuse`,
transformer.py lines 220-305) -/

/-- `common_incs` (lines 258-262): the union of the two loops' INC
arguments, restricted to data in the union of their incremented data. -/
def hfCommonIncs (base l : Loop) : List Arg :=
  ((incsOf base ++ incsOf l).dedup).filter
    (fun a => decide (a.data ∈ allIncs base ++ allIncs l))

/-- `maps` (lines 269-270): the maps of the indirect common INC arguments,
widened with the factor maps of any `MixedMap` among them. -/
def hfCandMaps (base l : Loop) : List PMapCore :=
  let ms := (((hfCommonIncs base l).filter (fun a => a.isIndirect)).filterMap
    (fun a => a.amap)).dedup
  ms.map (fun m => m.core) ++ (ms.flatMap (fun m => m.factors)).dedup

/-- `fusion_map_1` (line 272): candidate maps from the base loop's
iteration set to the scanned loop's iteration set. -/
def hfForwardMaps (base l : Loop) : List PMapCore :=
  (hfCandMaps base l).filter
    (fun m => decide (base.itSpace.iterset = m.iterset) && decide (l.itSpace.iterset = m.toset))

/-- `fusion_map_2` (line 273): candidate maps running the opposite way,
which trigger the base/fuse role swap. -/
def hfBackwardMaps (base l : Loop) : List PMapCore :=
  (hfCandMaps base l).filter
    (fun m => decide (base.itSpace.iterset = m.toset) && decide (l.itSpace.iterset = m.iterset))

/-- An accepted hard-fusion pair (an element of `fusible`, line 289):
base loop, fuse loop, connecting map and the shared incremented argument. -/
structure HFAccept where
  base : Loop
  fuse : Loop
  fmap : PMapCore
  commonInc : Option Arg
deriving DecidableEq, Repr, Inhabited

/-- The inner forward scan of `_hard_fuse`
(`for i, loop in enumerate(loop_chain[base_loop_index+1:], 1)`).
`i` is the enumeration index of the head of `rest`; the result carries the
accepted pair, if any, and the final value of the Python variable `i`
(which the outer loop adds to `base_loop_index`).  A `continue` advances
the scan, a `break` returns the current index, exhaustion leaves the last
used index (`i - 1`). -/
def hfScan (base : Loop) : List Loop → Nat → Option HFAccept × Nat
  | [], i => (none, i - 1)
  | l :: rest, i =>
    if (loopsAnalyzer base l).homogeneous then hfScan base rest (i + 1)
    else if !(loopsAnalyzer base l).pure_iai then (none, i)
    else if (hfCommonIncs base l).isEmpty then (none, i)
    else
      match hfForwardMaps base l, hfBackwardMaps base l with
      | m :: _, _ =>
        if l.args.any (fun a => a.isDirect) then (none, i)
        else (some ⟨base, l, m,
          ((hfCommonIncs base l).filter (fun a => decide (a ∈ base.args))).head?⟩, i)
      | [], m :: _ =>
        if base.args.any (fun a => a.isDirect) then (none, i)
        else (some ⟨l, base, m,
          ((hfCommonIncs base l).filter (fun a => decide (a ∈ l.args))).head?⟩, i)
      | [], [] => hfScan base rest (i + 1)

/-- One iteration of the outer `while` loop of `_hard_fuse`, parametric in
the continuation `rec` standing for the remaining iterations. -/
def hfOuterGo (chain : List Loop)
    (rec : Nat → Option Nat → Option (List HFAccept)) (idx : Nat) (lastI : Option Nat) :
    Option (List HFAccept) :=
  if idx < chain.length then
    match chain.drop (idx + 1) with
    | [] =>
      match lastI with
      | none => none
      | some i0 => rec (idx + i0) (some i0)
    | r :: rs =>
      match rec (idx + (hfScan (chain.getD idx dummyLoop) (r :: rs) 1).2)
          (some (hfScan (chain.getD idx dummyLoop) (r :: rs) 1).2) with
      | none => none
      | some t =>
        match (hfScan (chain.getD idx dummyLoop) (r :: rs) 1).1 with
        | some a => some (a :: t)
        | none => some t
  else some []

/-- The outer search loop of `_hard_fuse`
(`while base_loop_index < len(loop_chain)`), collecting `fusible`.
`lastI` is the value the Python variable `i` holds from an earlier
iteration; when the inner scan range is empty and `i` was never bound the
source raises `NameError`, modelled as `none`.  `fuel` bounds the
recursion; `chain.length + 1` always suffices since the index advances by
at least one per iteration. -/
def hfOuter (chain : List Loop) : Nat → Option Nat → Nat → Option (List HFAccept)
  | _, _, 0 => none
  | idx, lastI, Nat.succ fuel =>
    hfOuterGo chain (fun j li => hfOuter chain j li fuel) idx lastI

/-! ## Execution-plan / coloring model (`ParLoop._get_plan` and
`ParLoop._compute`, openmp.py lines 1113-1151; the `Plan` class itself
lives in `pyop2/plan.pyx`, which is not under src/ and is modelled from the
spec, section 4.6) -/

/-- Accesses counted as indirect writes for the coloring property:
INC or WRITE. -/
def isIncWriteAcc : Access → Bool
  | Access.INC => true
  | Access.WRITE => true
  | _ => false

/-- The indirectly-addressed locations (datum, target index) that an
argument INCs or WRITEs when iteration element `e` executes. -/
def argWriteLocs (a : Arg) (e : Nat) : List (Nat × Nat) :=
  if (a.isIndirect || a.isMat) && isIncWriteAcc a.access then
    match a.amap with
    | some m => (m.values.getD e []).map (fun t => (a.data, t))
    | none => []
  else []

def loopWriteLocs (l : Loop) (e : Nat) : List (Nat × Nat) :=
  l.args.flatMap (fun a => argWriteLocs a e)

/-- All indirectly-addressed locations INC'd or WRITTEN by the elements of
one block. -/
def blockWriteLocs (l : Loop) (blk : List Nat) : List (Nat × Nat) :=
  blk.flatMap (fun e => loopWriteLocs l e)

/-- Partition the element range `[offset, offset + size)` into contiguous
blocks of `psize` elements (the last block may be shorter), as both `Plan`
and `FakePlan` do. -/
def mkBlocks (offset size psize : Nat) : List (List Nat) :=
  (List.range ((size + psize - 1) / psize)).map (fun k =>
    (List.range (min psize (size - k * psize))).map (fun j => offset + k * psize + j))

def listMax (l : List Nat) : Nat := l.foldr (fun x m => max x m) 0

/-- The colors not yet used by a conflicting block, in increasing order. -/
def freeColors (used : List Nat) : List Nat :=
  (List.range (listMax used + 2)).filter (fun c => decide (¬ c ∈ used))

/-- The smallest color not used by a conflicting block. -/
def smallestFree (used : List Nat) : Nat := (freeColors used).headD (listMax used + 1)

/-- Overlap test between two location sets. -/
def locsInter (xs ys : List (Nat × Nat)) : Bool := xs.any (fun p => decide (p ∈ ys))

/-- Modelled from the spec: the block coloring of `plan.Plan`
(`pyop2/plan.pyx` is not under src/).  Per section 4.6, blocks are colored
so that two blocks sharing a color write no common indirectly-addressed
location: each block receives the smallest color not used by an
already-colored block whose write set overlaps its own.  `done` is the list
of already-colored blocks with their colors. -/
def greedyAssign (done : List (List (Nat × Nat) × Nat)) :
    List (List (Nat × Nat)) → List (List (Nat × Nat) × Nat)
  | [] => done
  | w :: ws =>
    let used := (done.filter (fun p => locsInter p.1 w)).map (fun p => p.2)
    greedyAssign (done ++ [(w, smallestFree used)]) ws

/-- The shape of an execution plan consumed by `ParLoop._compute`: the
blocks of the partition and the color of each block. -/
structure PlanShape where
  blocks : List (List Nat)
  colors : List Nat
deriving Repr

/-- Modelled from the spec: `plan.Plan(part, *args, partition_size, ...)`
for an indirect loop (section 4.6): fixed-size contiguous blocks with a
conflict-free greedy coloring of their indirect INC/WRITE footprints. -/
def mkPlan (l : Loop) (offset size psize : Nat) : PlanShape :=
  let bs := mkBlocks offset size psize
  ⟨bs, (greedyAssign [] (bs.map (fun b => blockWriteLocs l b))).map (fun p => p.2)⟩

/-- `FakePlan` (openmp.py lines 1139-1150): for a direct loop, one single
color covering all blocks. -/
def fakePlan (offset size psize : Nat) : PlanShape :=
  let bs := mkBlocks offset size psize
  ⟨bs, bs.map (fun _ => 0)⟩

/-- `ParLoop._get_plan` (openmp.py lines 1128-1151): a real plan when the
loop has indirect (or matrix) arguments, otherwise a `FakePlan`. -/
def getPlan (l : Loop) (offset size psize : Nat) : PlanShape :=
  if l.args.all (fun a => a.isDirect) then fakePlan offset size psize
  else mkPlan l offset size psize

/-! ## SLOPE set conversion (`create_slope_set`, transformer.py lines
802-836) -/

/-- The execution mode reported by `slope.get_exec_mode()`. -/
inductive SlopeExecMode where
  | SEQUENTIAL | OMP | OMP_MPI | ONLY_MPI
deriving DecidableEq, Repr, Inhabited

/-- The fields of a PyOP2 set that `create_slope_set` consumes.  An
element of `deepSizes` is one halo level `(core, owned, exec, nonexec)`. -/
structure OpSet where
  name : String
  isSubset : Bool
  supersetName : String
  indices : List Nat
  coreSize : Nat
  execSize : Nat
  totalSize : Nat
  deepSizes : List (Nat × Nat × Nat × Nat)
deriving DecidableEq, Repr, Inhabited

/-- The `SlopeSet` named tuple (line 807). -/
structure SlopeSet where
  sname : String
  core : Nat
  boundary : Nat
  nonexec : Nat
  superset : Option String
deriving DecidableEq, Repr, Inhabited

/-- `create_slope_set(op2set, extra_halo)` (transformer.py lines 802-836).
In the `Subset` branch the source computes `name = "%s_ss" % op2set` and
then evaluates `s.superset.name` (line 815) where no variable `s` is in
scope, so every `Subset` input raises `NameError`; this is modelled as an
error value.  The non-subset branch computes the (core, boundary, nonexec)
sizes from the plain sizes, or from the deepest halo level under the MPI
execution modes. -/
def createSlopeSet (op2set : OpSet) (extraHalo : Bool) (execMode : SlopeExecMode) :
    Except String SlopeSet :=
  if op2set.isSubset then
    Except.error ("NameError: global name s is not defined")
  else
    if execMode = SlopeExecMode.OMP_MPI ∨ execMode = SlopeExecMode.ONLY_MPI then
      match op2set.deepSizes.getLast? with
      | none => Except.error ("AttributeError: no deep halo sizes")
      | some lN =>
        let core := lN.1
        let boundary := lN.2.2.1 - core
        let nonexec := lN.2.2.2 - lN.2.2.1
        if extraHalo ∧ nonexec = 0 then
          match op2set.deepSizes.dropLast.getLast? with
          | none => Except.error ("IndexError: deep halo sizes out of range")
          | some lE =>
            Except.ok ⟨op2set.name, core, lE.2.2.1 - core, lE.2.2.2 - lE.2.2.1, none⟩
        else Except.ok ⟨op2set.name, core, boundary, nonexec, none⟩
    else
      Except.ok ⟨op2set.name, op2set.coreSize, op2set.execSize - op2set.coreSize,
                 op2set.totalSize - op2set.execSize, none⟩

/-! ## Schedules and the inspector state machine (`Inspector`,
transformer.py lines 60-497; the `Schedule` classes live in
`pyop2/fusion/scheduler.py`, which is not under src/, so their replay of
the loop chain is modelled from the spec) -/

/-- The schedule tower built by the passes: `PlainSchedule`,
`FusionSchedule(name, prev, kernels, offsets)`,
`HardFusionSchedule(name, prev, fused)` and
`TilingSchedule(name, prev, kernel, ...)`. -/
inductive Sched where
  | plain (name : String) (kernels : List FunDecl)
  | fusion (name : String) (prev : Sched) (kernels : List FunDecl) (offsets : List Nat)
  | hardFusion (name : String) (prev : Sched) (fused : List HFAccept)
  | tiling (name : String) (prev : Sched) (kernels : List FunDecl)
deriving DecidableEq, Repr, Inhabited

inductive PassTag where
  | soft | hard | tile
deriving DecidableEq, Repr, Inhabited

/-- Modelled from the spec: `FusionSchedule.__call__`
(`pyop2/fusion/scheduler.py` not under src/).  The schedule replays the
chain as one execution step per soft-fusion group: a loop over the group's
common iteration set, executing the fused kernel and touching the union of
the member loops' arguments. -/
def applySoftSchedule (groups : List (List Loop)) : List Loop :=
  groups.filterMap (fun g =>
    match g with
    | [] => none
    | l :: _ =>
      some ⟨l.itSpace, g.flatMap (fun x => x.args), buildSoftFusionKernel g⟩)

/-- The `handled` offsets of `_soft_fuse` (the index in the chain one past
each closed group): cumulative group lengths. -/
def offsetsOf (acc : Nat) : List (List Loop) → List Nat
  | [] => []
  | g :: gs => (acc + g.length) :: offsetsOf (acc + g.length) gs

/-- `Inspector._soft_fuse`: build the fused kernels and the
`FusionSchedule`, and replay the chain through it. -/
def softFusePass (name : String) (chain : List Loop) (sched : Sched) : Sched × List Loop :=
  let gs := softFuseGroups chain
  (Sched.fusion name sched (gs.map buildSoftFusionKernel) (offsetsOf 0 gs),
   applySoftSchedule gs)

/-- Modelled from the spec: `HardFusionSchedule.__call__`
(`pyop2/fusion/scheduler.py` not under src/).  Each accepted (base, fuse)
pair is replayed as one loop over the base loop's iteration set carrying
both loops' arguments; the fuse loop is removed from the chain. -/
def applyHardSchedule (fs : List HFAccept) (chain : List Loop) : List Loop :=
  fs.foldl (fun ch acc =>
    (ch.filter (fun l => decide (l ≠ acc.fuse))).map
      (fun l => if l = acc.base then { l with args := acc.base.args ++ acc.fuse.args } else l))
    chain

/-- `Inspector._hard_fuse`: search for fusible pairs and build the
`HardFusionSchedule`; `none` models the `NameError` raised when the inner
scan range is empty on the first outer iteration. -/
def hardFusePass (name : String) (chain : List Loop) (sched : Sched) :
    Option (Sched × List Loop) :=
  match hfOuter chain 0 none (chain.length + 1) with
  | none => none
  | some fs => some (Sched.hardFusion name sched fs, applyHardSchedule fs chain)

/-- `Inspector._tile` (transformer.py lines 307-489), reduced to its
schedule effect: under the MPI execution modes, if any iteration set in the
chain lacks deep halo information, warn and return with the schedule
unchanged (lines 320-324); otherwise wrap the schedule in a
`TilingSchedule` (the SLOPE registration, code generation and compilation
are external collaborators).  The boolean records whether the warning was
issued. -/
def tilePass (execMode : SlopeExecMode) (name : String) (chain : List Loop)
    (sched : Sched) : Sched × Bool :=
  if (decide (execMode = SlopeExecMode.OMP_MPI) ||
      decide (execMode = SlopeExecMode.ONLY_MPI)) &&
     !(chain.all (fun l => l.itSpace.deepHalo)) then
    (sched, true)
  else (Sched.tiling name sched (chain.map (fun l => l.kernel)), false)

/-- The fusion mode requested of an Inspector (`Inspector._modes`);
`other` covers any unsupported mode string. -/
inductive FMode where
  | soft | hard | tile | only_tile | only_omp | other (s : String)
deriving DecidableEq, Repr, Inhabited

/-- `self.mode not in Inspector._modes` (line 145). -/
def legalMode : FMode → Bool
  | FMode.other _ => false
  | _ => true

/-- `self.mode in ['soft', 'hard', 'tile']` (line 149). -/
def runsSoft : FMode → Bool
  | FMode.soft => true
  | FMode.hard => true
  | FMode.tile => true
  | _ => false

/-- `self.mode in ['hard', 'tile']` (line 151). -/
def runsHard : FMode → Bool
  | FMode.hard => true
  | FMode.tile => true
  | _ => false

/-- `self.mode in ['tile', 'only_tile', 'only_omp']` (line 153). -/
def runsTile : FMode → Bool
  | FMode.tile => true
  | FMode.only_tile => true
  | FMode.only_omp => true
  | _ => false

/-- `self.mode in ['tile', 'only_tile']` in
`_heuristic_skip_inspection` (line 174). -/
def heurTileModes : FMode → Bool
  | FMode.tile => true
  | FMode.only_tile => true
  | _ => false

/-- The per-fingerprint state that survives across inspection requests on
the cached Inspector object: the `_initialized` flag, the `_ninsps`
counter (absent until the first request) and the schedule. -/
structure InspectorState where
  initialized : Bool
  ninsps : Option Nat
  schedule : Sched
deriving DecidableEq, Repr

/-- The outcome of one `inspect()` call: the returned schedule, whether the
deep-halo warning fired, and which passes were entered. -/
structure InspResult where
  sched : Sched
  warned : Bool
  passes : List PassTag
deriving DecidableEq, Repr

/-- `self._ninsps = self._ninsps + 1 if hasattr(self, '_ninsps') else 1`
(line 173). -/
def bumpNinsps : Option Nat → Nat
  | none => 1
  | some k => k + 1

/-- The tiling stage of `inspect` (line 153): run `_tile` under the modes
that request it. -/
def tileStage (mode : FMode) (execMode : SlopeExecMode) (name : String)
    (chain : List Loop) (sched : Sched) (tags : List PassTag) : InspResult :=
  if runsTile mode then
    let q := tilePass execMode name chain sched
    ⟨q.1, q.2, tags ++ [PassTag.tile]⟩
  else ⟨sched, false, tags⟩

/-- The pass pipeline of `inspect` (lines 148-154): soft fusion, then hard
fusion, then tiling, each guarded by the mode. -/
def runBuild (mode : FMode) (execMode : SlopeExecMode) (name : String)
    (chain : List Loop) : Except String InspResult :=
  let s0 := Sched.plain name (chain.map (fun l => l.kernel))
  let p1 :=
    if runsSoft mode then
      let q := softFusePass name chain s0
      (q.1, q.2, [PassTag.soft])
    else (s0, chain, ([] : List PassTag))
  if runsHard mode then
    match hardFusePass name p1.2.1 p1.1 with
    | none => Except.error ("NameError: local variable i referenced before assignment")
    | some q => Except.ok (tileStage mode execMode name q.2 q.1 (p1.2.2 ++ [PassTag.hard]))
  else Except.ok (tileStage mode execMode name p1.2.1 p1.1 p1.2.2)

/-- The composition of the soft and hard passes starting from the plain
schedule: the pre-tiling schedule and chain under modes `hard` and
`tile`. -/
def fusionStages (name : String) (chain : List Loop) : Option (Sched × List Loop) :=
  let s0 := Sched.plain name (chain.map (fun l => l.kernel))
  let q := softFusePass name chain s0
  hardFusePass name q.2 q.1

/-- One inspection request on the cached Inspector: `Inspector.__init__`
(which re-establishes the transient fields and the `PlainSchedule` while
`_initialized` is false; the `Cached` machinery of `pyop2/caching.py` is
not under src/ and is modelled from the spec's get-or-build cache
semantics) followed by `Inspector.inspect()` (lines 131-163).  A cached
inspector returns its schedule immediately; otherwise the skip heuristic
may return the trivial schedule; otherwise an illegal mode raises; and
otherwise the passes run and the result is cached. -/
def inspectStep (mode : FMode) (execMode : SlopeExecMode) (name : String)
    (chain : List Loop) (st : InspectorState) :
    InspectorState × Except String InspResult :=
  if st.initialized then (st, Except.ok ⟨st.schedule, false, []⟩)
  else
    let n := bumpNinsps st.ninsps
    let plainS := Sched.plain name (chain.map (fun l => l.kernel))
    if heurTileModes mode && decide (n < 3) then
      (⟨false, some n, plainS⟩, Except.ok ⟨plainS, false, []⟩)
    else if !legalMode mode then
      (⟨false, some n, plainS⟩,
       Except.error ("RuntimeError: Inspection accepts only soft, hard, tile, only_tile, only_omp fusion modes"))
    else
      match runBuild mode execMode name chain with
      | Except.error e => (⟨false, some n, plainS⟩, Except.error e)
      | Except.ok r => (⟨true, some n, r.sched⟩, Except.ok r)

/-! ## Predicates used by the statements -/

/-- The break witnessed at the boundary between two adjacent soft-fusion
groups: the last loop of the left group and the first loop of the right
group fail the fusibility test. -/
def GroupBoundary (g g' : List Loop) : Prop :=
  ∃ x y, g.getLast? = some x ∧ g'.head? = some y ∧ sfBreak x y = true

/-- Two colored blocks are compatible when a shared color forces disjoint
write sets. -/
def ColorOk (x y : List (Nat × Nat) × Nat) : Prop :=
  x.2 = y.2 → locsInter x.1 y.1 = false

/-! ## Concrete sample inputs used by the witnesses -/

def itA : ItSpace := ⟨0, 1, true⟩

def itB : ItSpace := ⟨1, 1, true⟩

def kEmpty : FunDecl := ⟨"k", [], []⟩

/-- C1/C10 samples: a pure increment-after-increment pair, and a
heterogeneous pair with overlapping direct data. -/
def wIncA : Loop := ⟨itA, [⟨0, Access.INC, none, false⟩], kEmpty⟩

def wIncB : Loop := ⟨itA, [⟨0, Access.INC, none, false⟩, ⟨4, Access.READ, none, false⟩], kEmpty⟩

def wHet1 : Loop := ⟨itA, [⟨7, Access.WRITE, none, false⟩], kEmpty⟩

def wHet2 : Loop := ⟨itB, [⟨7, Access.READ, none, false⟩], kEmpty⟩

/-- C3 samples: two homogeneous direct loops with a tolerated direct
read-after-write hazard, then a loop over a different set. -/
def g3a : Loop := ⟨itA, [⟨1, Access.WRITE, none, false⟩], ⟨"ka", [], []⟩⟩

def g3b : Loop := ⟨itA, [⟨1, Access.READ, none, false⟩], ⟨"kb", [], []⟩⟩

def g3c : Loop := ⟨itB, [⟨1, Access.READ, none, false⟩], ⟨"kc", [], []⟩⟩

/-- C4 samples: loop A reads `x` and writes `y`, loop B reads `y` and
increments `z`; datum 2 (`y`) is shared. -/
def w4A : Loop :=
  ⟨itA, [⟨1, Access.READ, none, false⟩, ⟨2, Access.WRITE, none, false⟩],
   ⟨"A", [⟨"double*", "x"⟩, ⟨"double*", "y"⟩], [Stmt.node ["x", "y"]]⟩⟩

def w4B : Loop :=
  ⟨itA, [⟨2, Access.READ, none, false⟩, ⟨3, Access.INC, none, false⟩],
   ⟨"B", [⟨"double*", "yy"⟩, ⟨"double*", "zz"⟩], [Stmt.node ["yy", "zz"]]⟩⟩

/-- C5 samples: two heterogeneous loops incrementing the same datum
through maps connecting their iteration sets. -/
def m01 : PMap := ⟨⟨0, 0, 1, 3⟩, [], []⟩

def m10 : PMap := ⟨⟨1, 1, 0, 3⟩, [], []⟩

def w5a : Loop := ⟨⟨0, 5, true⟩, [⟨0, Access.INC, some m01, false⟩], ⟨"k5a", [], []⟩⟩

def w5b : Loop := ⟨⟨1, 7, true⟩, [⟨0, Access.INC, some m10, false⟩], ⟨"k5b", [], []⟩⟩

def w5acc : HFAccept := ((hfOuter [w5a, w5b] 0 none 3).getD []).headD default

/-- C6 samples: `c6mid` shares no incremented datum with `c6base`;
`c6tail` would be accepted if the forward scan continued past `c6mid`. -/
def c6base : Loop := ⟨⟨0, 5, true⟩, [⟨0, Access.INC, some m01, false⟩], ⟨"k6b", [], []⟩⟩

def c6mid : Loop :=
  ⟨⟨2, 4, true⟩, [⟨9, Access.INC, some ⟨⟨5, 2, 3, 2⟩, [], []⟩, false⟩], ⟨"k6m", [], []⟩⟩

def c6tail : Loop := ⟨⟨1, 7, true⟩, [⟨0, Access.INC, some m10, false⟩], ⟨"k6t", [], []⟩⟩

def c6acc : HFAccept := ((hfScan c6base [c6tail] 2).1).getD default

/-- C2 samples: an indirect INC loop whose map sends elements 0,1 to
location 0 and elements 2,3 to location 1. -/
def wPlanLoop : Loop :=
  ⟨⟨0, 4, true⟩, [⟨5, Access.INC, some ⟨⟨9, 0, 1, 1⟩, [], [[0], [0], [1], [1]]⟩, false⟩],
   ⟨"kp", [], []⟩⟩

/-- C7 samples: two heterogeneous direct loops with disjoint data and deep
halos everywhere, so the build (including tiling) succeeds. -/
def w7a : Loop := ⟨⟨0, 1, true⟩, [⟨11, Access.READ, none, false⟩],
  ⟨"k7a", [⟨"double*", "a"⟩], [Stmt.node ["a"]]⟩⟩

def w7b : Loop := ⟨⟨1, 1, true⟩, [⟨12, Access.WRITE, none, false⟩],
  ⟨"k7b", [⟨"double*", "b"⟩], [Stmt.node ["b"]]⟩⟩

def w7chain : List Loop := [w7a, w7b]

def plain7 : Sched := Sched.plain ("chain7") (w7chain.map (fun l => l.kernel))

def w7res : InspResult :=
  ((inspectStep FMode.tile SlopeExecMode.SEQUENTIAL ("chain7") w7chain
      ⟨false, some 2, plain7⟩).2).toOption.getD ⟨Sched.plain ("") [], false, []⟩

/-- C8 samples: as C7 but the first loop's iteration set lacks deep halo
information, and the execution mode needs it. -/
def w8a : Loop := ⟨⟨0, 1, false⟩, [⟨11, Access.READ, none, false⟩],
  ⟨"k8a", [⟨"double*", "a"⟩], [Stmt.node ["a"]]⟩⟩

def w8b : Loop := ⟨⟨1, 1, true⟩, [⟨12, Access.WRITE, none, false⟩],
  ⟨"k8b", [⟨"double*", "b"⟩], [Stmt.node ["b"]]⟩⟩

def w8chain : List Loop := [w8a, w8b]

def w8out : Sched × List Loop :=
  (fusionStages ("chain8") w8chain).getD (Sched.plain ("") [], [])

/-- C9 sample: a `Subset` iteration set. -/
def w9subset : OpSet := ⟨"sub_cells", true, "cells", [0, 2], 1, 1, 2, []⟩

/-! ## Theorems: dependency analyzer -/

theorem dinter_iff (xs ys : List Nat) : dinter xs ys = true ↔ ∃ d, d ∈ xs ∧ d ∈ ys := by
  simp [dinter]

theorem pure_iai_eq (loop1 loop2 : Loop) :
    (loopsAnalyzer loop1 loop2).pure_iai =
      (dinter (allIncs loop1) (allIncs loop2) &&
       !(dinter (allWrites loop1) (allReads loop2)) &&
       !(dinter (allReads loop1) (allWrites loop2)) &&
       !(dinter (allWrites loop1) (allReads loop2))) := rfl

theorem isIncAcc_iff (x : Access) : isIncAcc x = true ↔ x = Access.INC := by
  cases x <;> decide

theorem isWriteAcc_iff (x : Access) :
    isWriteAcc x = true ↔
      (x = Access.WRITE ∨ x = Access.RW ∨ x = Access.MIN ∨ x = Access.MAX) := by
  cases x <;> decide

theorem isReadAcc_iff (x : Access) :
    isReadAcc x = true ↔ (x = Access.READ ∨ x = Access.RW) := by
  cases x <;> decide

theorem mem_allIncs (l : Loop) (d : Nat) :
    d ∈ allIncs l ↔ ∃ a ∈ l.args, a.access = Access.INC ∧ a.data = d := by
  simp [allIncs, incsOf, List.mem_filter, isIncAcc_iff, and_assoc]

theorem mem_allWrites (l : Loop) (d : Nat) :
    d ∈ allWrites l ↔ ∃ a ∈ l.args,
      (a.access = Access.WRITE ∨ a.access = Access.RW ∨
       a.access = Access.MIN ∨ a.access = Access.MAX) ∧ a.data = d := by
  simp [allWrites, writesOf, List.mem_filter, isWriteAcc_iff, and_assoc]

theorem mem_allReads (l : Loop) (d : Nat) :
    d ∈ allReads l ↔ ∃ a ∈ l.args,
      (a.access = Access.READ ∨ a.access = Access.RW) ∧ a.data = d := by
  simp [allReads, readsOf, List.mem_filter, isReadAcc_iff, and_assoc]

/-- C1.  `loops_analyzer` returns `pure_iai = true` exactly when the two
loops increment at least one common datum and, over all arguments of both
loops, no datum written by one loop (WRITE/RW/MIN/MAX access) is read
(READ/RW access) by the other, in either direction. -/
theorem pure_iai_characterisation (loop1 loop2 : Loop) :
    (loopsAnalyzer loop1 loop2).pure_iai = true ↔
      ((∃ a ∈ loop1.args, ∃ b ∈ loop2.args,
          a.access = Access.INC ∧ b.access = Access.INC ∧ a.data = b.data) ∧
       (∀ a ∈ loop1.args, ∀ b ∈ loop2.args,
          (a.access = Access.WRITE ∨ a.access = Access.RW ∨
           a.access = Access.MIN ∨ a.access = Access.MAX) →
          (b.access = Access.READ ∨ b.access = Access.RW) → a.data ≠ b.data) ∧
       (∀ a ∈ loop1.args, ∀ b ∈ loop2.args,
          (a.access = Access.READ ∨ a.access = Access.RW) →
          (b.access = Access.WRITE ∨ b.access = Access.RW ∨
           b.access = Access.MIN ∨ b.access = Access.MAX) → a.data ≠ b.data)) := by
  rw [pure_iai_eq]
  simp only [Bool.and_eq_true, Bool.not_eq_true']
  constructor
  · rintro ⟨⟨⟨hinc, hwr⟩, hrw⟩, -⟩
    refine ⟨?_, ?_, ?_⟩
    · obtain ⟨d, hd1, hd2⟩ := (dinter_iff _ _).mp hinc
      obtain ⟨a, ha, hacc, rfl⟩ := (mem_allIncs _ _).mp hd1
      obtain ⟨b, hb, hbacc, hbd⟩ := (mem_allIncs _ _).mp hd2
      exact ⟨a, ha, b, hb, hacc, hbacc, hbd.symm⟩
    · intro a ha b hb hw hr heq
      have hc : dinter (allWrites loop1) (allReads loop2) = true :=
        (dinter_iff _ _).mpr ⟨a.data, (mem_allWrites _ _).mpr ⟨a, ha, hw, rfl⟩,
          (mem_allReads _ _).mpr ⟨b, hb, hr, heq.symm⟩⟩
      rw [hwr] at hc
      exact Bool.false_ne_true hc
    · intro a ha b hb hr hw heq
      have hc : dinter (allReads loop1) (allWrites loop2) = true :=
        (dinter_iff _ _).mpr ⟨a.data, (mem_allReads _ _).mpr ⟨a, ha, hr, rfl⟩,
          (mem_allWrites _ _).mpr ⟨b, hb, hw, heq.symm⟩⟩
      rw [hrw] at hc
      exact Bool.false_ne_true hc
  · rintro ⟨⟨a, ha, b, hb, haacc, hbacc, hd⟩, hwr, hrw⟩
    have h1 : dinter (allIncs loop1) (allIncs loop2) = true :=
      (dinter_iff _ _).mpr ⟨a.data, (mem_allIncs _ _).mpr ⟨a, ha, haacc, rfl⟩,
        (mem_allIncs _ _).mpr ⟨b, hb, hbacc, hd.symm⟩⟩
    have h2 : dinter (allWrites loop1) (allReads loop2) = false := by
      refine Bool.eq_false_iff.mpr (fun hc => ?_)
      obtain ⟨d, hd1, hd2⟩ := (dinter_iff _ _).mp hc
      obtain ⟨x, hx, hxacc, rfl⟩ := (mem_allWrites _ _).mp hd1
      obtain ⟨y, hy, hyacc, hyd⟩ := (mem_allReads _ _).mp hd2
      exact hwr x hx y hy hxacc hyacc hyd.symm
    have h3 : dinter (allReads loop1) (allWrites loop2) = false := by
      refine Bool.eq_false_iff.mpr (fun hc => ?_)
      obtain ⟨d, hd1, hd2⟩ := (dinter_iff _ _).mp hc
      obtain ⟨x, hx, hxacc, rfl⟩ := (mem_allReads _ _).mp hd1
      obtain ⟨y, hy, hyacc, hyd⟩ := (mem_allWrites _ _).mp hd2
      exact hrw x hx y hy hxacc hyacc hyd.symm
    exact ⟨⟨⟨h1, h2⟩, h3⟩, h2⟩

theorem pure_iai_characterisation_witness :
    (loopsAnalyzer wIncA wIncB).pure_iai = true :=
  (pure_iai_characterisation wIncA wIncB).mpr (by decide)

/-- C10.  For heterogeneous pairs all direct hazard flags are false. -/
theorem heterogeneous_clears_direct_flags (loop1 loop2 : Loop)
    (h : loop1.itSpace ≠ loop2.itSpace) :
    (loopsAnalyzer loop1 loop2).heterogeneous = true ∧
    (loopsAnalyzer loop1 loop2).direct_raw = false ∧
    (loopsAnalyzer loop1 loop2).direct_war = false ∧
    (loopsAnalyzer loop1 loop2).direct_waw = false ∧
    (loopsAnalyzer loop1 loop2).direct_w = false := by
  have hd : decide (loop1.itSpace = loop2.itSpace) = false := decide_eq_false h
  simp [loopsAnalyzer, hd]

theorem heterogeneous_clears_direct_flags_witness :
    wHet1.itSpace ≠ wHet2.itSpace ∧
    dinter (dirIncWrites wHet1) (dirReads wHet2) = true ∧
    ((loopsAnalyzer wHet1 wHet2).heterogeneous = true ∧
     (loopsAnalyzer wHet1 wHet2).direct_raw = false ∧
     (loopsAnalyzer wHet1 wHet2).direct_war = false ∧
     (loopsAnalyzer wHet1 wHet2).direct_waw = false ∧
     (loopsAnalyzer wHet1 wHet2).direct_w = false) :=
  ⟨by decide, by decide, heterogeneous_clears_direct_flags wHet1 wHet2 (by decide)⟩

/-! ## Theorems: soft-fusion grouping -/

theorem softGroupsGo_ne_nil (rest : List Loop) :
    ∀ cur lastL, softGroupsGo cur lastL rest ≠ [] := by
  induction rest with
  | nil => intro cur lastL; simp [softGroupsGo]
  | cons l rest ih =>
    intro cur lastL
    simp only [softGroupsGo]
    split
    · simp
    · exact ih _ _

theorem catAll_cons (g : List Loop) (gs : List (List Loop)) :
    catAll (g :: gs) = g ++ catAll gs := rfl

theorem softGroupsGo_spec (rest : List Loop) :
    ∀ cur lastL, cur.getLast? = some lastL →
      List.Chain' (fun a b => sfBreak a b = false) cur →
      catAll (softGroupsGo cur lastL rest) = cur ++ rest ∧
      (∀ g ∈ softGroupsGo cur lastL rest, g ≠ []) ∧
      (∀ g ∈ softGroupsGo cur lastL rest, List.Chain' (fun a b => sfBreak a b = false) g) ∧
      List.Chain' GroupBoundary (softGroupsGo cur lastL rest) ∧
      (softGroupsGo cur lastL rest).head?.bind (fun g => g.head?) = cur.head? := by
  induction rest with
  | nil =>
    intro cur lastL hlast hch
    have hne : cur ≠ [] := by
      intro hc; rw [hc] at hlast; simp at hlast
    refine ⟨by simp [softGroupsGo, catAll], ?_, ?_, ?_, ?_⟩
    · intro g hg; simp [softGroupsGo] at hg; rw [hg]; exact hne
    · intro g hg; simp [softGroupsGo] at hg; rw [hg]; exact hch
    · simp [softGroupsGo]
    · simp [softGroupsGo]
  | cons l rest ih =>
    intro cur lastL hlast hch
    have hne : cur ≠ [] := by
      intro hc; rw [hc] at hlast; simp at hlast
    by_cases hb : sfBreak lastL l = true
    · have hrw : softGroupsGo cur lastL (l :: rest) = cur :: softGroupsGo [l] l rest := by
        simp [softGroupsGo, hb]
      obtain ⟨ihcat, ihne, ihch, ihbd, ihhd⟩ :=
        ih [l] l (by simp) (List.chain'_singleton l)
      refine ⟨?_, ?_, ?_, ?_, ?_⟩
      · rw [hrw, catAll_cons, ihcat]; simp
      · intro g hg
        rw [hrw] at hg
        rcases List.mem_cons.mp hg with rfl | hg
        · exact hne
        · exact ihne g hg
      · intro g hg
        rw [hrw] at hg
        rcases List.mem_cons.mp hg with rfl | hg
        · exact hch
        · exact ihch g hg
      · rw [hrw, List.chain'_cons']
        refine ⟨?_, ihbd⟩
        intro g0 hg0
        have hX : softGroupsGo [l] l rest ≠ [] := softGroupsGo_ne_nil rest [l] l
        rcases hXc : softGroupsGo [l] l rest with _ | ⟨gg, ggs⟩
        · exact absurd hXc hX
        · rw [hXc] at hg0 ihhd
          simp at hg0 ihhd
          rw [← hg0]
          exact ⟨lastL, l, hlast, ihhd, hb⟩
      · rw [hrw]
        rcases hc : cur with _ | ⟨c, cs⟩
        · exact absurd hc hne
        · simp
    · have hbf : sfBreak lastL l = false := Bool.eq_false_iff.mpr hb
      have hrw : softGroupsGo cur lastL (l :: rest) = softGroupsGo (cur ++ [l]) l rest := by
        simp [softGroupsGo, hbf]
      have hch' : List.Chain' (fun a b => sfBreak a b = false) (cur ++ [l]) := by
        rw [List.chain'_append]
        refine ⟨hch, List.chain'_singleton l, ?_⟩
        intro x hx y hy
        rw [hlast] at hx
        simp at hx hy
        rw [← hx, ← hy]
        exact hbf
      obtain ⟨ihcat, ihne, ihch, ihbd, ihhd⟩ :=
        ih (cur ++ [l]) l (List.getLast?_concat cur) hch'
      refine ⟨?_, ?_, ?_, ?_, ?_⟩
      · rw [hrw, ihcat]; simp
      · intro g hg; rw [hrw] at hg; exact ihne g hg
      · intro g hg; rw [hrw] at hg; exact ihch g hg
      · rw [hrw]; exact ihbd
      · rw [hrw, ihhd]
        rcases hc : cur with _ | ⟨c, cs⟩
        · exact absurd hc hne
        · simp

/-- C3.  `_soft_fuse` emits exactly the maximal contiguous runs of the
chain in which each consecutive pair passes the fusibility test against
the last loop of the group: the groups concatenate back to the chain, are
all non-empty, are internally free of `heterogeneous`/`indirect_w` breaks,
and every group boundary witnesses a break. -/
theorem soft_fusion_emits_maximal_runs (l : Loop) (rest : List Loop) :
    catAll (softFuseGroups (l :: rest)) = l :: rest ∧
    (∀ g ∈ softFuseGroups (l :: rest), g ≠ []) ∧
    (∀ g ∈ softFuseGroups (l :: rest), List.Chain' (fun a b => sfBreak a b = false) g) ∧
    List.Chain' GroupBoundary (softFuseGroups (l :: rest)) := by
  obtain ⟨h1, h2, h3, h4, -⟩ :=
    softGroupsGo_spec rest [l] l (by simp) (List.chain'_singleton l)
  exact ⟨h1, h2, h3, h4⟩

theorem soft_fusion_emits_maximal_runs_witness :
    softFuseGroups [g3a, g3b, g3c] = [[g3a, g3b], [g3c]] ∧
    (loopsAnalyzer g3a g3b).direct_raw = true ∧
    catAll (softFuseGroups [g3a, g3b, g3c]) = [g3a, g3b, g3c] :=
  ⟨by decide, by decide, (soft_fusion_emits_maximal_runs g3a [g3b, g3c]).1⟩

/-! ## Theorems: soft-fusion kernel builder -/

theorem fuseAll_body (ks : List FunDecl) :
    ∀ u b, (fuseAll u b ks).body =
      b.body ++ (List.enumFrom u ks).flatMap (fun p => fusedBodyPiece p.1 p.2) := by
  induction ks with
  | nil => intro u b; simp [fuseAll]
  | cons k ks ih =>
    intro u b
    show (fuseAll (u + 1) (fuseInto u b k) ks).body = _
    rw [ih]
    simp [fuseInto, fusedBodyPiece, List.enumFrom]

theorem fuseAll_name (ks : List FunDecl) :
    ∀ u b, (fuseAll u b ks).name =
      ks.foldl (fun n f => n ++ "_" ++ f.name) b.name := by
  induction ks with
  | nil => intro u b; simp [fuseAll]
  | cons k ks ih =>
    intro u b
    show (fuseAll (u + 1) (fuseInto u b k) ks).name = _
    rw [ih]
    simp [fuseInto]

theorem fuseAll_args (ks : List FunDecl) :
    ∀ u b, (fuseAll u b ks).args =
      b.args ++ (List.enumFrom u ks).flatMap (fun p => fusedArgsPiece p.1 p.2) := by
  induction ks with
  | nil => intro u b; simp [fuseAll]
  | cons k ks ih =>
    intro u b
    show (fuseAll (u + 1) (fuseInto u b k) ks).args = _
    rw [ih]
    simp [fuseInto, fusedArgsPiece, List.enumFrom]

theorem dedupFirstByData_spec (ps : List (Arg × Decl)) :
    ∀ seen, ∃ kept : List (Arg × Decl),
      kept.Sublist ps ∧
      dedupFirstByData seen ps = kept.map (fun q => q.2) ∧
      (kept.map (fun q => q.1.data)).Nodup ∧
      (∀ q ∈ kept, ¬ q.1.data ∈ seen) ∧
      ∀ p ∈ ps, p.1.data ∈ seen ∨ p.1.data ∈ kept.map (fun q => q.1.data) := by
  induction ps with
  | nil =>
    intro seen
    exact ⟨[], List.Sublist.refl [], rfl, List.nodup_nil, by simp, by simp⟩
  | cons p ps ih =>
    intro seen
    rcases p with ⟨a, d⟩
    by_cases h : a.data ∈ seen
    · obtain ⟨kept, hsub, heq, hnd, hseen, hcov⟩ := ih seen
      refine ⟨kept, hsub.cons _, ?_, hnd, hseen, ?_⟩
      · simpa [dedupFirstByData, h] using heq
      · intro q hq
        rcases List.mem_cons.mp hq with rfl | hq
        · exact Or.inl h
        · exact hcov q hq
    · obtain ⟨kept, hsub, heq, hnd, hseen, hcov⟩ := ih (a.data :: seen)
      refine ⟨(a, d) :: kept, hsub.cons₂ _, ?_, ?_, ?_, ?_⟩
      · simpa [dedupFirstByData, h] using heq
      · simp only [List.map_cons, List.nodup_cons]
        refine ⟨?_, hnd⟩
        intro hc
        obtain ⟨q, hq, hqd⟩ := List.mem_map.mp hc
        exact hseen q hq (by rw [hqd]; exact List.mem_cons_self _ _)
      · intro q hq
        rcases List.mem_cons.mp hq with rfl | hq
        · exact h
        · intro hc
          exact hseen q hq (List.mem_cons_of_mem _ hc)
      · intro p' hp'
        rcases List.mem_cons.mp hp' with rfl | hp'
        · exact Or.inr (by simp)
        · rcases hcov p' hp' with hc | hc
          · rcases List.mem_cons.mp hc with hc' | hc'
            · exact Or.inr (by simp [hc'])
            · exact Or.inl hc'
          · exact Or.inr (List.mem_cons_of_mem _ hc)

/-- C4.  The kernel synthesized for a soft-fusion group: its body is the
first loop's statements followed, in chain order, by each later kernel's
statements renamed with its per-kernel suffix and preceded by the marker
comment; its name is the first kernel's name extended by each fused
kernel's name; and its parameter list is obtained from the concatenated
(renamed) signatures by keeping one parameter per underlying datum, so a
datum shared by two grouped loops appears only once. -/
theorem soft_fusion_kernel_structure (l : Loop) (rest : List Loop) :
    (buildSoftFusionKernel (l :: rest)).body =
      l.kernel.body ++ (List.enumFrom 1 (rest.map (fun x => x.kernel))).flatMap
        (fun p => fusedBodyPiece p.1 p.2) ∧
    (buildSoftFusionKernel (l :: rest)).name =
      (rest.map (fun x => x.kernel)).foldl (fun n f => n ++ "_" ++ f.name) l.kernel.name ∧
    ∃ kept : List (Arg × Decl),
      kept.Sublist (((l :: rest).flatMap (fun x => x.args)).zip
        (l.kernel.args ++ (List.enumFrom 1 (rest.map (fun x => x.kernel))).flatMap
          (fun p => fusedArgsPiece p.1 p.2))) ∧
      (buildSoftFusionKernel (l :: rest)).args = kept.map (fun q => q.2) ∧
      (kept.map (fun q => q.1.data)).Nodup ∧
      ∀ p ∈ ((l :: rest).flatMap (fun x => x.args)).zip
        (l.kernel.args ++ (List.enumFrom 1 (rest.map (fun x => x.kernel))).flatMap
          (fun p => fusedArgsPiece p.1 p.2)),
        p.1.data ∈ kept.map (fun q => q.1.data) := by
  have hargs := fuseAll_args (rest.map (fun x => x.kernel)) 1 l.kernel
  refine ⟨?_, ?_, ?_⟩
  · show (fuseAll 1 l.kernel (rest.map (fun x => x.kernel))).body = _
    exact fuseAll_body _ 1 l.kernel
  · show (fuseAll 1 l.kernel (rest.map (fun x => x.kernel))).name = _
    exact fuseAll_name _ 1 l.kernel
  · obtain ⟨kept, hsub, heq, hnd, -, hcov⟩ :=
      dedupFirstByData_spec (((l :: rest).flatMap (fun x => x.args)).zip
        (fuseAll 1 l.kernel (rest.map (fun x => x.kernel))).args) []
    rw [hargs] at hsub heq hcov
    refine ⟨kept, hsub, ?_, hnd, ?_⟩
    · show dedupFirstByData [] (((l :: rest).flatMap (fun x => x.args)).zip
        (fuseAll 1 l.kernel (rest.map (fun x => x.kernel))).args) = _
      rw [hargs]
      exact heq
    intro p hp
    rcases hcov p hp with hc | hc
    · exact absurd hc (List.not_mem_nil _)
    · exact hc

theorem soft_fusion_kernel_structure_witness :
    ((buildSoftFusionKernel [w4A, w4B]).body =
      w4A.kernel.body ++ (List.enumFrom 1 ([w4B].map (fun x => x.kernel))).flatMap
        (fun p => fusedBodyPiece p.1 p.2)) ∧
    (buildSoftFusionKernel [w4A, w4B]).body =
      [Stmt.node ["x", "y"], markerStmt, Stmt.node ["yy_1", "zz_1"]] ∧
    (buildSoftFusionKernel [w4A, w4B]).args =
      [⟨"double*", "x"⟩, ⟨"double*", "y"⟩, ⟨"double*", "zz_1"⟩] ∧
    (buildSoftFusionKernel [w4A, w4B]).name = "A_B" :=
  ⟨(soft_fusion_kernel_structure w4A [w4B]).1, by decide, by decide, by decide⟩

/-! ## Theorems: hard-fusion pair search -/

theorem hfScan_accept_fuse_indirect (base : Loop) :
    ∀ (rest : List Loop) (i : Nat) (acc : HFAccept),
      (hfScan base rest i).1 = some acc →
      acc.fuse.args.all (fun a => !a.isDirect) = true := by
  intro rest
  induction rest with
  | nil => intro i acc h; simp [hfScan] at h
  | cons l rest ih =>
    intro i acc h
    rw [hfScan] at h
    split at h
    · exact ih _ _ h
    · split at h
      · exact absurd h (by simp)
      · split at h
        · exact absurd h (by simp)
        · split at h
          · split at h
            · exact absurd h (by simp)
            · rename_i hnd
              simp only [Option.some.injEq] at h
              rw [← h]
              simp only [List.all_eq_true, Bool.not_eq_true']
              intro a ha
              exact Bool.eq_false_iff.mpr (List.any_eq_false.mp (Bool.eq_false_iff.mpr hnd) a ha)
          · split at h
            · exact absurd h (by simp)
            · rename_i hnd
              simp only [Option.some.injEq] at h
              rw [← h]
              simp only [List.all_eq_true, Bool.not_eq_true']
              intro a ha
              exact Bool.eq_false_iff.mpr (List.any_eq_false.mp (Bool.eq_false_iff.mpr hnd) a ha)
          · exact ih _ _ h

theorem hfOuter_accepts_fuse_indirect (chain : List Loop) :
    ∀ (fuel idx : Nat) (lastI : Option Nat) (fs : List HFAccept),
      hfOuter chain idx lastI fuel = some fs →
      ∀ acc ∈ fs, acc.fuse.args.all (fun a => !a.isDirect) = true := by
  intro fuel
  induction fuel with
  | zero => intro idx lastI fs h; simp [hfOuter] at h
  | succ fuel ih =>
    intro idx lastI fs h
    rw [hfOuter] at h
    unfold hfOuterGo at h
    split at h
    · split at h
      · split at h
        · exact absurd h (by simp)
        · exact ih _ _ _ h
      · rename_i r rs
        split at h
        · exact absurd h (by simp)
        · rename_i t hrec
          split at h
          · rename_i a hsc
            simp only [Option.some.injEq] at h
            intro acc hacc
            rw [← h] at hacc
            rcases List.mem_cons.mp hacc with rfl | hacc
            · exact hfScan_accept_fuse_indirect _ _ _ _ hsc
            · exact ih _ _ _ hrec acc hacc
          · rename_i hsc
            simp only [Option.some.injEq] at h
            intro acc hacc
            rw [← h] at hacc
            exact ih _ _ _ hrec acc hacc
    · simp only [Option.some.injEq] at h
      intro acc hacc
      rw [← h] at hacc
      simp at hacc

/-- C5.  Every (base, fuse) pair accepted by the hard-fusion search, after
any role swap induced by the direction of the connecting map, has a fuse
loop with no direct (map-free) argument. -/
theorem hard_fusion_fuse_has_no_direct_args (chain : List Loop) (fuel : Nat)
    (fs : List HFAccept) (acc : HFAccept)
    (h : hfOuter chain 0 none fuel = some fs) (hacc : acc ∈ fs) :
    acc.fuse.args.all (fun a => !a.isDirect) = true :=
  hfOuter_accepts_fuse_indirect chain fuel 0 none fs h acc hacc

theorem hard_fusion_fuse_has_no_direct_args_witness :
    hfOuter [w5a, w5b] 0 none 3 = some [w5acc] ∧
    w5acc.fuse = w5b ∧
    w5acc.fuse.args.all (fun a => !a.isDirect) = true :=
  ⟨by decide, by decide,
   hard_fusion_fuse_has_no_direct_args [w5a, w5b] 3 [w5acc] w5acc (by decide)
     (List.mem_singleton.mpr rfl)⟩

/-- C6 counterexample.  With `c6mid` sharing no incremented datum with
`c6base`, the inner scan returns immediately (`break`) instead of
continuing with the remaining candidates: scanning past `c6mid` would have
accepted `c6tail`. -/
theorem hard_fusion_no_common_inc_aborts_scan :
    (loopsAnalyzer c6base c6mid).homogeneous = false ∧
    dinter (allIncs c6base) (allIncs c6mid) = false ∧
    hfScan c6base [c6mid, c6tail] 1 = (none, 1) ∧
    hfScan c6base [c6tail] 2 = (some c6acc, 2) ∧
    (none, 1) ≠ (some c6acc, (2 : Nat)) := by decide

/-- C6, amended.  When a heterogeneous candidate pair reaches the
connecting-map search and no connecting map exists, no error is raised and
the forward scan continues with the next candidate; when the pair shares
no incremented datum, no error is raised either, but the pair is rejected
by aborting the forward scan for this base loop (the outer search then
resumes at a later base). -/
theorem hard_fusion_rejection_behaviour (base l : Loop) (rest : List Loop) (i : Nat)
    (hhet : (loopsAnalyzer base l).homogeneous = false) :
    (dinter (allIncs base) (allIncs l) = false →
      hfScan base (l :: rest) i = (none, i)) ∧
    ((loopsAnalyzer base l).pure_iai = true →
      hfForwardMaps base l = [] → hfBackwardMaps base l = [] →
      hfScan base (l :: rest) i = hfScan base rest (i + 1)) := by
  constructor
  · intro hni
    have hp : (loopsAnalyzer base l).pure_iai = false := by
      rw [pure_iai_eq, hni]
      rfl
    rw [hfScan, if_neg (by rw [hhet]; exact Bool.false_ne_true),
        if_pos (by rw [hp]; rfl)]
  · intro hp hf hb
    have hinc : dinter (allIncs base) (allIncs l) = true := by
      rw [pure_iai_eq] at hp
      simp only [Bool.and_eq_true] at hp
      exact hp.1.1.1
    obtain ⟨d, hd1, hd2⟩ := (dinter_iff _ _).mp hinc
    obtain ⟨a, ha, hacc, rfl⟩ := (mem_allIncs _ _).mp hd1
    have hmem : a ∈ hfCommonIncs base l := by
      simp only [hfCommonIncs, List.mem_filter, List.mem_dedup, List.mem_append,
        decide_eq_true_eq]
      refine ⟨Or.inl ?_, Or.inl hd1⟩
      simp only [incsOf, List.mem_filter]
      exact ⟨ha, by rw [(isIncAcc_iff _).mpr hacc]⟩
    have hne : (hfCommonIncs base l).isEmpty = false := by
      rcases hc : hfCommonIncs base l with _ | ⟨x, xs⟩
      · rw [hc] at hmem; exact absurd hmem (List.not_mem_nil _)
      · rfl
    rw [hfScan, if_neg (by rw [hhet]; exact Bool.false_ne_true),
        if_neg (by rw [hp]; simp), if_neg (by rw [hne]; exact Bool.false_ne_true),
        hf, hb]

theorem hard_fusion_rejection_behaviour_witness :
    hfScan c6base [c6mid] 1 = (none, 1) :=
  (hard_fusion_rejection_behaviour c6base c6mid [] 1 (by decide)).1 (by decide)

/-! ## Theorems: execution-plan coloring -/

theorem mem_le_listMax (l : List Nat) : ∀ x ∈ l, x ≤ listMax l := by
  induction l with
  | nil => simp
  | cons a t ih =>
    intro x hx
    rcases List.mem_cons.mp hx with rfl | hx
    · exact Nat.le_max_left _ _
    · exact le_trans (ih x hx) (Nat.le_max_right _ _)

theorem smallestFree_not_mem (used : List Nat) : ¬ smallestFree used ∈ used := by
  have hfree : listMax used + 1 ∈ freeColors used := by
    simp only [freeColors, List.mem_filter, List.mem_range, decide_eq_true_eq]
    refine ⟨by omega, fun h => ?_⟩
    have := mem_le_listMax used _ h
    omega
  have hne : freeColors used ≠ [] := fun h => by simp [h] at hfree
  have hhd : smallestFree used ∈ freeColors used := by
    rw [smallestFree]
    rcases hC : freeColors used with _ | ⟨c, cs⟩
    · exact absurd hC hne
    · simp
  have hm : smallestFree used < listMax used + 2 ∧ ¬ smallestFree used ∈ used := by
    simpa [freeColors] using hhd
  exact hm.2

theorem locsInter_eq_false_iff (xs ys : List (Nat × Nat)) :
    locsInter xs ys = false ↔ ∀ p ∈ xs, ¬ p ∈ ys := by
  simp [locsInter]

theorem locsInter_comm_false (xs ys : List (Nat × Nat)) :
    locsInter xs ys = false → locsInter ys xs = false := by
  rw [locsInter_eq_false_iff, locsInter_eq_false_iff]
  intro h p hpy hpx
  exact h p hpx hpy

theorem greedyAssign_pairwise (ws : List (List (Nat × Nat))) :
    ∀ done, List.Pairwise ColorOk done → List.Pairwise ColorOk (greedyAssign done ws) := by
  induction ws with
  | nil => intro done h; simpa [greedyAssign] using h
  | cons w ws ih =>
    intro done h
    rw [greedyAssign]
    apply ih
    rw [List.pairwise_append]
    refine ⟨h, by simp, ?_⟩
    intro a ha b hb
    simp only [List.mem_singleton] at hb
    rw [hb]
    intro hcol
    refine Bool.eq_false_iff.mpr (fun hc => ?_)
    have hu : a.2 ∈ (done.filter (fun p => locsInter p.1 w)).map (fun p => p.2) :=
      List.mem_map.mpr ⟨a, List.mem_filter.mpr ⟨ha, hc⟩, rfl⟩
    rw [hcol] at hu
    exact smallestFree_not_mem _ hu

theorem greedyAssign_fsts (ws : List (List (Nat × Nat))) :
    ∀ done, (greedyAssign done ws).map (fun p => p.1) = done.map (fun p => p.1) ++ ws := by
  induction ws with
  | nil => intro done; simp [greedyAssign]
  | cons w ws ih =>
    intro done
    rw [greedyAssign, ih]
    simp

theorem greedy_colors_sound (ws : List (List (Nat × Nat))) (i j : Nat)
    (hi : i < ws.length) (hj : j < ws.length) (hne : i ≠ j)
    (hc : ((greedyAssign [] ws).map (fun p => p.2)).getD i 0 =
          ((greedyAssign [] ws).map (fun p => p.2)).getD j 0) :
    locsInter (ws.getD i []) (ws.getD j []) = false := by
  have hfst : (greedyAssign [] ws).map (fun p => p.1) = ws := by
    simpa using greedyAssign_fsts ws []
  have hlen : (greedyAssign [] ws).length = ws.length := by
    have := congrArg List.length hfst
    simpa using this
  have hpw := greedyAssign_pairwise ws [] List.Pairwise.nil
  have hi' : i < (greedyAssign [] ws).length := by omega
  have hj' : j < (greedyAssign [] ws).length := by omega
  have hgetw : ∀ (k : Nat) (hk : k < ws.length),
      ws.getD k [] = ((greedyAssign [] ws).getD k default).1 := by
    intro k hk
    have hk' : k < (greedyAssign [] ws).length := by omega
    rw [List.getD_eq_getElem _ _ hk, List.getD_eq_getElem _ _ hk']
    rw [List.getElem_of_eq hfst.symm hk, List.getElem_map]
  have hgetc : ∀ (k : Nat) (hk : k < (greedyAssign [] ws).length),
      ((greedyAssign [] ws).map (fun p => p.2)).getD k 0 =
        ((greedyAssign [] ws).getD k default).2 := by
    intro k hk
    have hk2 : k < ((greedyAssign [] ws).map (fun p => p.2)).length := by
      rw [List.length_map]; exact hk
    rw [List.getD_eq_getElem _ _ hk2, List.getD_eq_getElem _ _ hk, List.getElem_map]
  have hpair := List.pairwise_iff_getElem.mp hpw
  have hcol : ((greedyAssign [] ws).getD i default).2 =
      ((greedyAssign [] ws).getD j default).2 := by
    rw [← hgetc i hi', ← hgetc j hj']
    exact hc
  rw [hgetw i hi, hgetw j hj]
  have hgd : ∀ (k : Nat) (hk : k < (greedyAssign [] ws).length),
      (greedyAssign [] ws).getD k default = (greedyAssign [] ws)[k] := by
    intro k hk
    exact List.getD_eq_getElem _ _ hk
  rcases Nat.lt_or_ge i j with hij | hij
  · have := hpair i j hi' hj' hij
    rw [hgd i hi', hgd j hj'] at hcol ⊢
    exact this hcol
  · have hji : j < i := by omega
    have := hpair j i hj' hi' hji
    rw [hgd i hi', hgd j hj'] at hcol ⊢
    exact locsInter_comm_false _ _ (this hcol.symm)

/-- C2.  For a plan generated for a loop with indirect or matrix arguments,
two distinct blocks that share a color INC/WRITE disjoint sets of
indirectly-addressed locations. -/
theorem plan_same_color_blocks_disjoint (l : Loop) (offset size psize i j : Nat)
    (hind : l.args.all (fun a => a.isDirect) = false)
    (hne : i ≠ j)
    (hi : i < (getPlan l offset size psize).blocks.length)
    (hj : j < (getPlan l offset size psize).blocks.length)
    (hc : (getPlan l offset size psize).colors.getD i 0 =
          (getPlan l offset size psize).colors.getD j 0) :
    locsInter (blockWriteLocs l ((getPlan l offset size psize).blocks.getD i []))
              (blockWriteLocs l ((getPlan l offset size psize).blocks.getD j [])) = false := by
  have hplan : getPlan l offset size psize = mkPlan l offset size psize := by
    rw [getPlan, hind]
    rfl
  rw [hplan] at hi hj hc ⊢
  have hblocks : (mkPlan l offset size psize).blocks = mkBlocks offset size psize := rfl
  have hcolors : (mkPlan l offset size psize).colors =
      (greedyAssign [] ((mkBlocks offset size psize).map
        (fun b => blockWriteLocs l b))).map (fun p => p.2) := rfl
  rw [hblocks] at hi hj ⊢
  rw [hcolors] at hc
  have hi2 : i < ((mkBlocks offset size psize).map (fun b => blockWriteLocs l b)).length := by
    rw [List.length_map]; exact hi
  have hj2 : j < ((mkBlocks offset size psize).map (fun b => blockWriteLocs l b)).length := by
    rw [List.length_map]; exact hj
  have hmain := greedy_colors_sound ((mkBlocks offset size psize).map
    (fun b => blockWriteLocs l b)) i j hi2 hj2 hne hc
  have hgm : ∀ (k : Nat) (hk : k < (mkBlocks offset size psize).length),
      ((mkBlocks offset size psize).map (fun b => blockWriteLocs l b)).getD k [] =
        blockWriteLocs l ((mkBlocks offset size psize).getD k []) := by
    intro k hk
    have hk2 : k < ((mkBlocks offset size psize).map (fun b => blockWriteLocs l b)).length := by
      rw [List.length_map]; exact hk
    rw [List.getD_eq_getElem _ _ hk2, List.getD_eq_getElem _ _ hk, List.getElem_map]
  rw [hgm i hi, hgm j hj] at hmain
  exact hmain

theorem plan_same_color_blocks_disjoint_witness :
    wPlanLoop.args.all (fun a => a.isDirect) = false ∧
    (getPlan wPlanLoop 0 4 2).blocks = [[0, 1], [2, 3]] ∧
    (getPlan wPlanLoop 0 4 2).colors = [0, 0] ∧
    locsInter (blockWriteLocs wPlanLoop ((getPlan wPlanLoop 0 4 2).blocks.getD 0 []))
              (blockWriteLocs wPlanLoop ((getPlan wPlanLoop 0 4 2).blocks.getD 1 [])) = false :=
  ⟨by decide, by decide, by decide,
   plan_same_color_blocks_disjoint wPlanLoop 0 4 2 0 1 (by decide) (by decide)
     (by decide) (by decide) (by decide)⟩

/-! ## Theorems: inspector state machine and tiling -/

theorem tilePass_cases (execMode : SlopeExecMode) (name : String) (chain : List Loop)
    (sched : Sched) :
    tilePass execMode name chain sched = (sched, true) ∨
    tilePass execMode name chain sched =
      (Sched.tiling name sched (chain.map (fun l => l.kernel)), false) := by
  rw [tilePass]
  split
  · exact Or.inl rfl
  · exact Or.inr rfl

theorem tileStage_shape (mode : FMode) (execMode : SlopeExecMode) (name : String)
    (chain : List Loop) (sched : Sched) (tags : List PassTag)
    (hm : runsTile mode = true) :
    PassTag.tile ∈ (tileStage mode execMode name chain sched tags).passes ∧
    ((tileStage mode execMode name chain sched tags).warned = false →
      ∃ pr ks, (tileStage mode execMode name chain sched tags).sched =
        Sched.tiling name pr ks) := by
  have hts : tileStage mode execMode name chain sched tags =
      ⟨(tilePass execMode name chain sched).1, (tilePass execMode name chain sched).2,
       tags ++ [PassTag.tile]⟩ := by
    simp [tileStage, hm]
  rw [hts]
  constructor
  · simp
  · intro hw
    rcases tilePass_cases execMode name chain sched with hcase | hcase
    · rw [hcase] at hw
      simp at hw
    · rw [hcase]
      exact ⟨sched, chain.map (fun l => l.kernel), rfl⟩

theorem runBuild_tile_shape (mode : FMode) (execMode : SlopeExecMode)
    (name : String) (chain : List Loop) (r : InspResult)
    (hm : runsTile mode = true)
    (h : runBuild mode execMode name chain = Except.ok r) :
    PassTag.tile ∈ r.passes ∧
    (r.warned = false → ∃ pr ks, r.sched = Sched.tiling name pr ks) := by
  by_cases hh : runsHard mode = true
  · rw [runBuild] at h
    rw [if_pos hh] at h
    split at h
    · exact absurd h (by simp)
    · rename_i q hq
      simp only [Except.ok.injEq] at h
      rw [← h]
      exact tileStage_shape mode execMode name q.2 q.1 _ hm
  · rw [runBuild] at h
    rw [if_neg hh] at h
    simp only [Except.ok.injEq] at h
    rw [← h]
    exact tileStage_shape mode execMode name _ _ _ hm

/-- C7.  Under the tiling-requesting modes `tile` and `only_tile`, the
first two inspection requests for a fingerprint return the trivial
schedule immediately, entering no pass and caching nothing; the third
request runs the build (entering the tiling pass, and producing a
`TilingSchedule` whenever the deep-halo warning does not fire) and caches
its result, which every subsequent request returns unchanged. -/
theorem tiling_inspection_deferred_until_third (mode : FMode) (execMode : SlopeExecMode)
    (name : String) (chain : List Loop) (s0 : Sched)
    (hm : mode = FMode.tile ∨ mode = FMode.only_tile) :
    inspectStep mode execMode name chain ⟨false, none, s0⟩ =
      (⟨false, some 1, Sched.plain name (chain.map (fun l => l.kernel))⟩,
       Except.ok ⟨Sched.plain name (chain.map (fun l => l.kernel)), false, []⟩) ∧
    inspectStep mode execMode name chain
        ⟨false, some 1, Sched.plain name (chain.map (fun l => l.kernel))⟩ =
      (⟨false, some 2, Sched.plain name (chain.map (fun l => l.kernel))⟩,
       Except.ok ⟨Sched.plain name (chain.map (fun l => l.kernel)), false, []⟩) ∧
    (∀ r, (inspectStep mode execMode name chain
        ⟨false, some 2, Sched.plain name (chain.map (fun l => l.kernel))⟩).2 =
          Except.ok r →
      (inspectStep mode execMode name chain
        ⟨false, some 2, Sched.plain name (chain.map (fun l => l.kernel))⟩).1 =
          ⟨true, some 3, r.sched⟩ ∧
      PassTag.tile ∈ r.passes ∧
      (r.warned = false → ∃ pr ks, r.sched = Sched.tiling name pr ks) ∧
      inspectStep mode execMode name chain ⟨true, some 3, r.sched⟩ =
        (⟨true, some 3, r.sched⟩, Except.ok ⟨r.sched, false, []⟩)) := by
  have hheur : heurTileModes mode = true := by rcases hm with rfl | rfl <;> rfl
  have hlegal : legalMode mode = true := by rcases hm with rfl | rfl <;> rfl
  have hruns : runsTile mode = true := by rcases hm with rfl | rfl <;> rfl
  refine ⟨by simp [inspectStep, bumpNinsps, hheur],
          by simp [inspectStep, bumpNinsps, hheur], ?_⟩
  intro r hr
  cases hrb : runBuild mode execMode name chain with
  | error e =>
    simp [inspectStep, bumpNinsps, hheur, hlegal, hrb] at hr
  | ok r' =>
    simp [inspectStep, bumpNinsps, hheur, hlegal, hrb] at hr
    subst hr
    refine ⟨by simp [inspectStep, bumpNinsps, hheur, hlegal, hrb], ?_, ?_, rfl⟩
    · exact (runBuild_tile_shape mode execMode name chain r' hruns hrb).1
    · exact (runBuild_tile_shape mode execMode name chain r' hruns hrb).2

theorem tiling_inspection_deferred_until_third_witness :
    inspectStep FMode.tile SlopeExecMode.SEQUENTIAL ("chain7") w7chain
        ⟨false, none, Sched.plain ("z") []⟩ =
      (⟨false, some 1, plain7⟩, Except.ok ⟨plain7, false, []⟩) ∧
    (inspectStep FMode.tile SlopeExecMode.SEQUENTIAL ("chain7") w7chain
        ⟨false, some 2, plain7⟩).2 = Except.ok w7res ∧
    PassTag.tile ∈ w7res.passes ∧
    (inspectStep FMode.tile SlopeExecMode.SEQUENTIAL ("chain7") w7chain
        ⟨false, some 2, plain7⟩).1 = ⟨true, some 3, w7res.sched⟩ := by
  have h := tiling_inspection_deferred_until_third FMode.tile SlopeExecMode.SEQUENTIAL
    ("chain7") w7chain (Sched.plain ("z") []) (Or.inl rfl)
  have hok : (inspectStep FMode.tile SlopeExecMode.SEQUENTIAL ("chain7") w7chain
      ⟨false, some 2, plain7⟩).2 = Except.ok w7res := rfl
  have h3 := h.2.2 w7res hok
  exact ⟨h.1, hok, h3.2.1, h3.1⟩

theorem tiling_skipped_without_deep_halo (execMode : SlopeExecMode) (name : String)
    (chain : List Loop) (st : InspectorState) (s2 : Sched) (c2 : List Loop)
    (hst : st.initialized = false) (hn : st.ninsps = some 2)
    (hem : execMode = SlopeExecMode.OMP_MPI ∨ execMode = SlopeExecMode.ONLY_MPI)
    (hf : fusionStages name chain = some (s2, c2))
    (hhalo : c2.all (fun l => l.itSpace.deepHalo) = false) :
    inspectStep FMode.tile execMode name chain st =
      (⟨true, some 3, s2⟩,
       Except.ok ⟨s2, true, [PassTag.soft, PassTag.hard, PassTag.tile]⟩) := by
  have htp : tilePass execMode name c2 s2 = (s2, true) := by
    rcases hem with rfl | rfl <;> simp [tilePass, hhalo]
  have hhf : hardFusePass name
      (softFusePass name chain (Sched.plain name (chain.map (fun l => l.kernel)))).2
      (softFusePass name chain (Sched.plain name (chain.map (fun l => l.kernel)))).1 =
      some (s2, c2) := hf
  have hrb : runBuild FMode.tile execMode name chain =
      Except.ok ⟨s2, true, [PassTag.soft, PassTag.hard, PassTag.tile]⟩ := by
    simp [runBuild, runsSoft, runsHard, runsTile, hhf, tileStage, htp]
  obtain ⟨ini, nin, sch⟩ := st
  simp only at hst hn
  subst hst
  subst hn
  simp [inspectStep, bumpNinsps, heurTileModes, legalMode, hrb]

theorem tiling_skipped_without_deep_halo_witness :
    (w8out.2.all (fun l => l.itSpace.deepHalo)) = false ∧
    fusionStages ("chain8") w8chain = some (w8out.1, w8out.2) ∧
    inspectStep FMode.tile SlopeExecMode.OMP_MPI ("chain8") w8chain
        ⟨false, some 2, Sched.plain ("chain8") []⟩ =
      (⟨true, some 3, w8out.1⟩,
       Except.ok ⟨w8out.1, true, [PassTag.soft, PassTag.hard, PassTag.tile]⟩) :=
  ⟨by decide, by decide,
   tiling_skipped_without_deep_halo SlopeExecMode.OMP_MPI ("chain8") w8chain
     ⟨false, some 2, Sched.plain ("chain8") []⟩ w8out.1 w8out.2 rfl rfl (Or.inl rfl)
     (by decide) (by decide)⟩

/-- C9.  `create_slope_set` reads the undefined variable `s` in its
`Subset` branch (transformer.py line 815, `superset = s.superset.name`),
so registering a loop that iterates over a `Subset` raises `NameError`
instead of producing the `_ss`-suffixed set carrying its superset's name:
the code contradicts the documented subset-resolution behavior. -/
theorem create_slope_set_subset_raises :
    createSlopeSet w9subset false SlopeExecMode.SEQUENTIAL =
      Except.error ("NameError: global name s is not defined") := rfl

end PyOP2Spec
